import Mathlib

/-!
Shallow embedding of `src/json/jsonTree.ts` (the `JsonTreeProvider` class of
the vscode-json tree-view extension), together with theorems settling the
frozen claims about it.

Modelling conventions:
* JavaScript dynamic values that flow through `value` / `key` fields are
  modelled by `JsAny` (with `undef` for `undefined` and `nullv` for `null`).
* The jsonc-parser syntax node (`json.Node`) is `JNode`; its optional
  `children` array is modelled by a `hasChildren` flag plus a list, so that
  `children === undefined` is `hasChildren = false` and `children = []`.
* The yaml library's node graph is `YNode`/`YPair`.  Only the fields the
  source reads are modelled: `range`, `value`, `toJSON` (as an optional
  pre-computed result, `none` when no such method exists), the `toString`
  rendering, and `items`.
* The TS `TreeNode` has a mutable `parent` back-reference and is stored by
  reference in `nodeMap`.  In the embedding a tree node owns its children
  (`TreeNode`), and the node map is reconstructed as the pre-order list of
  `set` operations the builders perform (`entriesOf` / `nodeMapOf`), each
  entry carrying the final node value and its parent node; a later `set` on
  the same offset wins (`mapFind?`), exactly like `Map.set` / `Map.get`.
* Thrown exceptions are modelled by `Except.error` (in `getTreeItem`) and by
  `none` results of `getLabel` (a `toString` call on `null` would throw).
-/

/-- A JavaScript runtime value as far as the source inspects one:
`undefined`, `null`, booleans, numbers, strings, or any other object. -/
inductive JsAny where
  | undef
  | nullv
  | boolv (b : Bool)
  | num (n : Int)
  | str (s : String)
  | objv
deriving DecidableEq

/-- The canonical node type enumeration (`TreeNodeType` in the source). -/
inductive TreeNodeType where
  | object
  | array
  | string
  | number
  | boolean
  | null
deriving DecidableEq

/-- The canonical tree node (`interface TreeNode` in the source).  The TS
`parent` back-reference is supplied contextually (see `Entry`); `children`
is `none` when the field is absent and `some` when it is an array. -/
inductive TreeNode where
  | mk (offset length : Nat) (type : TreeNodeType) (value key : JsAny)
       (keyOffset keyLength : Option Nat) (children : Option (List TreeNode))

def TreeNode.offset : TreeNode → Nat
  | .mk o _ _ _ _ _ _ _ => o

def TreeNode.length : TreeNode → Nat
  | .mk _ l _ _ _ _ _ _ => l

def TreeNode.type : TreeNode → TreeNodeType
  | .mk _ _ t _ _ _ _ _ => t

def TreeNode.value : TreeNode → JsAny
  | .mk _ _ _ v _ _ _ _ => v

def TreeNode.key : TreeNode → JsAny
  | .mk _ _ _ _ k _ _ _ => k

def TreeNode.keyOffset : TreeNode → Option Nat
  | .mk _ _ _ _ _ ko _ _ => ko

def TreeNode.keyLength : TreeNode → Option Nat
  | .mk _ _ _ _ _ _ kl _ => kl

def TreeNode.children : TreeNode → Option (List TreeNode)
  | .mk _ _ _ _ _ _ _ c => c

/-- The two assignments `child.keyOffset = keyNode.offset;
child.keyLength = keyNode.length;` performed on an already built node. -/
def TreeNode.stampKey : TreeNode → Nat → Nat → TreeNode
  | .mk o l t v k _ _ c, ko, kl => .mk o l t v k (some ko) (some kl) c

/-- A jsonc-parser syntax node (`json.Node`): `type` is the raw tag string
(`"object" | "array" | "property" | "string" | "number" | "boolean" |
"null"`), and `hasChildren = false` models `children === undefined`. -/
inductive JNode where
  | mk (type : String) (offset length : Nat) (value : JsAny)
       (hasChildren : Bool) (children : List JNode)

def JNode.type : JNode → String
  | .mk t _ _ _ _ _ => t

def JNode.offset : JNode → Nat
  | .mk _ o _ _ _ _ => o

def JNode.length : JNode → Nat
  | .mk _ _ l _ _ _ => l

def JNode.value : JNode → JsAny
  | .mk _ _ _ v _ _ => v

def JNode.hasChildren : JNode → Bool
  | .mk _ _ _ _ h _ => h

def JNode.children : JNode → List JNode
  | .mk _ _ _ _ _ c => c

/-- Models `normalizeNodeType` (source lines 404-421): unrecognized raw tags fall
back to `string`. -/
def normalizeNodeType (type : String) : TreeNodeType :=
  if type == "object" then .object
  else if type == "array" then .array
  else if type == "number" then .number
  else if type == "boolean" then .boolean
  else if type == "string" then .string
  else if type == "null" then .null
  else .string

mutual

/-- The body of `buildJsonTree` (source lines 224-271) for a non-null node;
the `if (!node)` guard lives in the `buildJsonTree` wrapper below (every
recursive call site of the source passes an already null-checked node).
The TS `parent` argument only installs a back-reference and is dropped here
(reconstructed by `entriesOf`); the trailing `key` argument defaults to
`undefined` at the call sites that omit it. -/
def buildJsonNode : JNode → JsAny → Option TreeNode
  | .mk ty off len val hc cs, key =>
    if ty == "property" && hc && !cs.isEmpty then
      buildJsonPropNode cs
    else
      some (.mk off len (normalizeNodeType ty) val key none none
        (some (if hc then
                 if ty == "object" then buildJsonObjChildren cs
                 else if ty == "array" then buildJsonArrChildren cs 0
                 else []
               else [])))

/-- The `node.type === 'property'` branch of `buildJsonTree`, applied to the
property's (non-empty) children array:
`keyNode = children[0]`, `valueNode = children[1]`; a missing value child
drops the property (`return undefined`), otherwise the builder recurses into
the value child and stamps its `keyOffset`/`keyLength` from the key child. -/
def buildJsonPropNode : List JNode → Option TreeNode
  | [] => none  -- unreachable: the caller's guard requires a non-empty children array
  | keyNode :: rest =>
    match rest with
    | [] => none  -- valueNode === undefined: return undefined
    | valueNode :: _ =>
      match buildJsonNode valueNode keyNode.value with
      | some child => some (child.stampKey keyNode.offset keyNode.length)
      | none => none

/-- The `node.type === 'object'` loop of `buildJsonTree`: children are built
with the key argument omitted (the recursion into the property supplies the
real key) and `undefined` results are not pushed. -/
def buildJsonObjChildren : List JNode → List TreeNode
  | [] => []
  | c :: rest =>
    match buildJsonNode c JsAny.undef with
    | some t => t :: buildJsonObjChildren rest
    | none => buildJsonObjChildren rest

/-- The `node.type === 'array'` forEach of `buildJsonTree`: children are
built with their integer index as key. -/
def buildJsonArrChildren : List JNode → Nat → List TreeNode
  | [], _ => []
  | c :: rest, i =>
    match buildJsonNode c (JsAny.num (Int.ofNat i)) with
    | some t => t :: buildJsonArrChildren rest (i + 1)
    | none => buildJsonArrChildren rest (i + 1)

end

/-- Models `buildJsonTree` on a possibly-null node: `if (!node) return undefined`. -/
def buildJsonTree : Option JNode → JsAny → Option TreeNode
  | none, _ => none
  | some n, key => buildJsonNode n key

/-- An element of a yaml `range` representation: a number or some other
value (`undefined`, a string, ...), as tested by `typeof x === 'number'`. -/
inductive JsNum where
  | num (n : Nat)
  | notnum
deriving DecidableEq

/-- The shape of a yaml node's `range` property as read by `getYamlRange`:
a JS array (`[start, value-end, node-end]` in the yaml library, but any
array shape is accepted), an object with `start`/`end` fields, or absent. -/
inductive RangeRep where
  | arr (elems : List JsNum)
  | obj (startField endField : JsNum)
  | absent
deriving DecidableEq

/-- Models `getYamlRange` (source lines 343-359) on the node's `range` value; the
`if (!node)` null guard is handled at the call sites (`getYamlRangeOfKey`).
An array range uses element 0 as start and element 1 (or, when that is not
a number, element 2) as end; otherwise an object with numeric `start` and
`end` fields is accepted; anything else resolves no span. -/
def getYamlRange : RangeRep → Option (Nat × Nat)
  | .arr elems =>
    match elems.get? 0 with
    | some (.num s) =>
      let endCandidate : Option Nat :=
        match elems.get? 1 with
        | some (.num e) => some e
        | _ => none
      let endResolved : Option Nat :=
        match endCandidate with
        | some e => some e
        | none =>
          match elems.get? 2 with
          | some (.num e) => some e
          | _ => none
      match endResolved with
      | some e => some (s, e)
      | none => none
    | _ => none
  | .obj (.num s) (.num e) => some (s, e)
  | _ => none

mutual

/-- A yaml library node as read by the source: a `YAMLMap` (`isMap`), a
`YAMLSeq` (`isSeq`), or a scalar.  `value` is the node's `value` property
(`JsAny.undef` when absent), `toJSON` the result of its `toJSON()` method
(`none` when no such method exists), `strRep` its `toString()` rendering. -/
inductive YNode where
  | map (range : RangeRep) (value : JsAny) (toJSON : Option JsAny)
        (strRep : String) (items : List YPair)
  | seq (range : RangeRep) (value : JsAny) (toJSON : Option JsAny)
        (strRep : String) (items : List YNode)
  | scalar (range : RangeRep) (value : JsAny) (toJSON : Option JsAny)
           (strRep : String)

/-- A yaml `Pair`: key and value are each possibly `null`.  A `Pair` itself
carries no `range` property. -/
inductive YPair where
  | mk (key : Option YNode) (value : Option YNode)

end

def YNode.range : YNode → RangeRep
  | .map r _ _ _ _ => r
  | .seq r _ _ _ _ => r
  | .scalar r _ _ _ => r

def YNode.value : YNode → JsAny
  | .map _ v _ _ _ => v
  | .seq _ v _ _ _ => v
  | .scalar _ v _ _ => v

def YNode.toJSON : YNode → Option JsAny
  | .map _ _ tj _ _ => tj
  | .seq _ _ tj _ _ => tj
  | .scalar _ _ tj _ => tj

def YNode.strRep : YNode → String
  | .map _ _ _ sr _ => sr
  | .seq _ _ _ sr _ => sr
  | .scalar _ _ _ sr => sr

def YPair.key : YPair → Option YNode
  | .mk k _ => k

def YPair.value : YPair → Option YNode
  | .mk _ v => v

/-- Models `getYamlValue` (source lines 381-389): prefer the `value` field if it is
not `undefined`, else fall back to `toJSON()`, else `null`. -/
def getYamlValue (node : YNode) : JsAny :=
  if node.value != JsAny.undef then node.value
  else
    match node.toJSON with
    | some j => j
    | none => JsAny.nullv

/-- Models `getYamlNodeType` (source lines 361-379): structural kind test first
(`isMap` / `isSeq`), then `typeof` of the extracted scalar value. -/
def getYamlNodeType (node : YNode) : TreeNodeType :=
  match node with
  | .map .. => .object
  | .seq .. => .array
  | .scalar .. =>
    match getYamlValue node with
    | .str _ => .string
    | .num _ => .number
    | .boolv _ => .boolean
    | _ => .null

/-- Models `getYamlPairKey` (source lines 391-402): `undefined` for a null key;
else the key's `value` field if not `undefined`, else its `toJSON()`, else
its string rendering (`pair.key.toString()`). -/
def getYamlPairKey (pair : YPair) : JsAny :=
  match pair.key with
  | none => JsAny.undef
  | some k =>
    if k.value != JsAny.undef then k.value
    else
      match k.toJSON with
      | some j => j
      | none => JsAny.str k.strRep

/-- The expression `this.getYamlRange(pair.key || pair)` (source lines 308
and 316): a yaml `Pair` carries no `range` property, so when the key is
null the fallback lookup on the pair object resolves no span. -/
def getYamlRangeOfKey : Option YNode → Option (Nat × Nat)
  | some k => getYamlRange k.range
  | none => getYamlRange RangeRep.absent

mutual

/-- Models `buildYamlTree` (source lines 285-341).  As for JSON, the TS `parent`
argument is dropped (reconstructed by `entriesOf`) and `key` defaults to
`undefined` where the source omits it.  A node whose range cannot be
resolved is dropped (`return undefined`). -/
def buildYamlTree : YNode → JsAny → Option TreeNode
  | .map r v tj sr items, key =>
    match getYamlRange r with
    | none => none
    | some (s, e) =>
      some (.mk s (e - s) (getYamlNodeType (.map r v tj sr items))
        (getYamlValue (.map r v tj sr items)) key none none
        (some (buildYamlPairs s items)))
  | .seq r v tj sr items, key =>
    match getYamlRange r with
    | none => none
    | some (s, e) =>
      some (.mk s (e - s) (getYamlNodeType (.seq r v tj sr items))
        (getYamlValue (.seq r v tj sr items)) key none none
        (some (buildYamlSeqChildren items 0)))
  | .scalar r v tj sr, key =>
    match getYamlRange r with
    | none => none
    | some (s, e) =>
      some (.mk s (e - s) (getYamlNodeType (.scalar r v tj sr))
        (getYamlValue (.scalar r v tj sr)) key none none (some []))

/-- The `isMap` loop of `buildYamlTree` (source lines 302-331), collecting
the children pushed for each pair; `parentOffset` is `current.offset`. -/
def buildYamlPairs (parentOffset : Nat) : List YPair → List TreeNode
  | [] => []
  | p :: rest =>
    match buildYamlPair parentOffset p with
    | some c => c :: buildYamlPairs parentOffset rest
    | none => buildYamlPairs parentOffset rest

/-- One iteration of the `isMap` loop: for a pair with a value, recurse and
stamp the key span (when resolvable); for a pair with an absent value,
synthesize a zero-length `null` node at the end of the key span (or at the
parent's own offset when the key has no resolvable span). -/
def buildYamlPair (parentOffset : Nat) : YPair → Option TreeNode
  | .mk pk pv =>
    let childKey := getYamlPairKey (.mk pk pv)
    match pv with
    | some valueNode =>
      match buildYamlTree valueNode childKey with
      | some childNode =>
        match getYamlRangeOfKey pk with
        | some (ks, ke) => some (childNode.stampKey ks (ke - ks))
        | none => some childNode
      | none => none
    | none =>
      let keyRange := getYamlRangeOfKey pk
      let nullOffset :=
        match keyRange with
        | some (_, ke) => ke
        | none => parentOffset
      some (.mk nullOffset 0 .null JsAny.undef childKey
        (keyRange.map Prod.fst)
        (some (match keyRange with
               | some (ks, ke) => ke - ks
               | none => 0))
        (some []))

/-- The `isSeq` forEach of `buildYamlTree` (source lines 332-339): children
are built with their integer index as key. -/
def buildYamlSeqChildren : List YNode → Nat → List TreeNode
  | [], _ => []
  | it :: rest, i =>
    match buildYamlTree it (JsAny.num (Int.ofNat i)) with
    | some c => c :: buildYamlSeqChildren rest (i + 1)
    | none => buildYamlSeqChildren rest (i + 1)

end

/-- Models `parseYamlTree` (source lines 273-283): `doc.contents` is passed in as
an optional value which is `none` whenever `parseDocument` threw, returned
no document, or a document without contents. -/
def parseYamlTree (contents : Option YNode) : Option TreeNode :=
  match contents with
  | none => none
  | some c => buildYamlTree c JsAny.undef

/-- One `nodeMap` entry: the (final) node stored at an offset, together with
the node its TS `parent` field references. -/
structure Entry where
  node : TreeNode
  parent : Option TreeNode

mutual

/-- The sequence of `nodeMap.set(offset, node)` operations a builder
performs for a (sub)tree, in order.  Both builders insert a node before
processing its children (pre-order), each entry keyed by the node's own
offset and holding a reference that, once the build finishes, carries the
fully built node; dropped sub-nodes perform no insertions.  `parent` is the
node the TS `parent` back-reference points to. -/
def entriesOf (parent : Option TreeNode) : TreeNode → List (Nat × Entry)
  | .mk o l t v k ko kl c =>
    (o, ⟨.mk o l t v k ko kl c, parent⟩)
      :: entriesOfChildren (.mk o l t v k ko kl c) c

def entriesOfChildren (parent : TreeNode) : Option (List TreeNode) → List (Nat × Entry)
  | none => []
  | some cs => entriesOfList parent cs

def entriesOfList (parent : TreeNode) : List TreeNode → List (Nat × Entry)
  | [] => []
  | c :: cs => entriesOf (some parent) c ++ entriesOfList parent cs

end

/-- The contents of `this.nodeMap` after a parse producing `tree` (the map
is cleared before each parse, and builders only insert). -/
def nodeMapOf : Option TreeNode → List (Nat × Entry)
  | none => []
  | some t => entriesOf none t

/-- Models `Map.get`: the last `set` for a key wins. -/
def mapFind? (entries : List (Nat × Entry)) (k : Nat) : Option Entry :=
  entries.foldl (fun acc e => if e.1 == k then some e.2 else acc) none

/-- All nodes reachable from `t` (pre-order). -/
def reachable (t : TreeNode) : List TreeNode :=
  (entriesOf none t).map fun e => e.2.node

/-- The provider's relevant mutable state after a parse: `tree`, `text`,
whether `this.editor` is set, and `languageId`. -/
structure ProviderState where
  tree : Option TreeNode
  text : String
  editorPresent : Bool
  languageId : Option String

/-- Models `isYamlLanguage` (source lines 220-222). -/
def isYamlLanguage (st : ProviderState) : Bool :=
  st.languageId == some "yaml"

/-- The data `parseTree` reads from an active editor: the document text, its
declared language id, and the results of the two external parsers on that
text — `json.parseTree(text)` (jsonc-parser) and `parseDocument(text).contents`
(yaml; `none` also covers a thrown parse error or an absent document). -/
structure EditorInput where
  text : String
  languageId : String
  jsonParseResult : Option JNode
  yamlContents : Option YNode

/-- Models `parseTree` (source lines 94-110): state is cleared, then — when an
active editor with a document exists (`input = some _`) — the text and
language id are cached and the tree is built, with *yaml* routed to the
yaml builder and **every other language id** routed to the JSON parser. -/
def parseTree (input : Option EditorInput) : ProviderState :=
  match input with
  | none => ⟨none, "", false, none⟩
  | some inp =>
    let tree :=
      if inp.languageId == "yaml" then parseYamlTree inp.yamlContents
      else
        match inp.jsonParseResult with
        | some parsedJson => buildJsonTree (some parsedJson) JsAny.undef
        | none => none
    ⟨tree, inp.text, true, some inp.languageId⟩

/-- Models `getChildrenOffsets` (source lines 121-129). -/
def getChildrenOffsets (node : TreeNode) : List Nat :=
  match node.children with
  | some cs => cs.map TreeNode.offset
  | none => []

/-- JS truthiness of the optional `offset` argument: present and non-zero
(`0` is falsy). -/
def offsetTruthy : Option Nat → Bool
  | some o => o != 0
  | none => false

/-- Models `getChildren` (source lines 112-119): with a truthy offset and a tree,
look the node up and return its children's offsets (empty when the offset
is unknown — no error); otherwise the root's children (empty without a
tree). -/
def getChildren (st : ProviderState) (offset : Option Nat) : List Nat :=
  if offsetTruthy offset && st.tree.isSome then
    match mapFind? (nodeMapOf st.tree) (offset.getD 0) with
    | some en => getChildrenOffsets en.node
    | none => []
  else
    match st.tree with
    | some t => getChildrenOffsets t
    | none => []

/-- Models `getNodeChildrenCount` (source lines 212-218). -/
def getNodeChildrenCount (node : TreeNode) : String :=
  match node.children with
  | some cs => toString cs.length
  | none => ""

/-- Models `x.toString()` on a JS value; `none` models the `TypeError` thrown for
`null` and `undefined`. -/
def jsToString : JsAny → Option String
  | .undef => none
  | .nullv => none
  | .boolv b => some (if b then "true" else "false")
  | .num n => some (toString n)
  | .str s => some s
  | .objv => some "[object Object]"

/-- Models `node.key?.toString() ?? ''`: optional chaining yields `''` for `null`
and `undefined` instead of throwing. -/
def jsOptToString (v : JsAny) : String :=
  match v with
  | .undef => ""
  | .nullv => ""
  | x => (jsToString x).getD ""

mutual

/-- Structural equality standing in for the JS `===` reference test of
`Array.prototype.indexOf`: sibling TreeNode objects are distinct references
and, being built from distinct spans, structurally distinct. -/
def beqTreeNode : TreeNode → TreeNode → Bool
  | .mk o1 l1 t1 v1 k1 ko1 kl1 c1, .mk o2 l2 t2 v2 k2 ko2 kl2 c2 =>
    o1 == o2 && l1 == l2 && t1 == t2 && v1 == v2 && k1 == k2
      && ko1 == ko2 && kl1 == kl2 && beqChildren c1 c2

def beqChildren : Option (List TreeNode) → Option (List TreeNode) → Bool
  | none, none => true
  | some a, some b => beqNodeList a b
  | _, _ => false

def beqNodeList : List TreeNode → List TreeNode → Bool
  | [], [] => true
  | a :: as, b :: bs => beqTreeNode a b && beqNodeList as bs
  | _, _ => false

end

/-- Models `parent.children.indexOf(node)`: `-1` when not found. -/
def indexOfNode (cs : List TreeNode) (n : TreeNode) : Int :=
  match cs.findIdx? (fun c => beqTreeNode c n) with
  | some i => Int.ofNat i
  | none => -1

/-- The text of `[off, off + len)`: models both
`editor.document.getText(new Range(positionAt(off), positionAt(off + len)))`
and `text.slice(off, off + len)` (both clamp to the document). -/
def sliceText (text : String) (off len : Nat) : String :=
  String.mk ((text.toList.drop off).take len)

/-- A JS template interpolation `${v}` of a possibly-undefined string. -/
def jsTemplateStr : Option String → String
  | some s => s
  | none => "undefined"

/-- The else-branch of `getLabel` (source lines 196-209), for a node whose
parent is not an array (or that has no parent): `property` is
`node.key !== undefined ? node.key.toString() : ''` — which throws
(modelled `none`) when the key is `null`. -/
def getLabelNonArray (editorText : Option String) (node : TreeNode) : Option String :=
  match (if node.key != JsAny.undef then jsToString node.key else some "") with
  | none => none
  | some property =>
    if node.type == TreeNodeType.array || node.type == TreeNodeType.object then
      if node.type == TreeNodeType.object then
        some ("\x7b " ++ getNodeChildrenCount node ++ " \x7d " ++ property)
      else
        some ("[ " ++ getNodeChildrenCount node ++ " ] " ++ property)
    else
      some (property ++ ": "
        ++ jsTemplateStr (editorText.map fun txt => sliceText txt node.offset node.length))

/-- Models `getLabel` (source lines 185-210).  `editorText` is the active editor's
document text (`none` when `this.editor` is undefined, in which case the
sliced value interpolates as `"undefined"`); `parent` is the node's TS
`parent` reference.  In the array-parent branch the scalar case is
`` `${prefix}:${value}` `` — note: no space after the colon. -/
def getLabel (editorText : Option String) (parent : Option TreeNode) (node : TreeNode) :
    Option String :=
  match parent with
  | some p =>
    if p.type == TreeNodeType.array then
      let pref : String :=
        match p.children with
        | some cs => toString (indexOfNode cs node)
        | none => jsOptToString node.key
      if node.type == TreeNodeType.object then
        some (pref ++ ": \x7b " ++ getNodeChildrenCount node ++ " \x7d")
      else if node.type == TreeNodeType.array then
        some (pref ++ ": [ " ++ getNodeChildrenCount node ++ " ]")
      else
        some (pref ++ ":"
          ++ jsTemplateStr (editorText.map fun txt => sliceText txt node.offset node.length))
    else getLabelNonArray editorText node
  | none => getLabelNonArray editorText node

/-- Models `vscode.TreeItemCollapsibleState`. -/
inductive CollapsibleState where
  | leafState
  | collapsedState
  | expandedState
deriving DecidableEq

/-- The observable parts of the `vscode.TreeItem` that `getTreeItem`
constructs: label, collapsible state, the command's range argument
(`[offset, offset + length)`), and the context value. -/
structure TreeItem where
  label : String
  collapsibleState : CollapsibleState
  commandRange : Nat × Nat
  contextValue : TreeNodeType
deriving DecidableEq

/-- Models `getTreeItem` (source lines 131-153): throws (`Except.error`) on a
missing tree, a missing editor, or an offset not present in the node map;
object nodes default expanded, arrays collapsed, scalars are leaves. -/
def getTreeItem (st : ProviderState) (offset : Nat) : Except String TreeItem :=
  match st.tree with
  | none => Except.error "Invalid tree"
  | some _ =>
    if !st.editorPresent then Except.error "Invalid editor"
    else
      match mapFind? (nodeMapOf st.tree) offset with
      | some en =>
        let valueNode := en.node
        let hasChildren :=
          valueNode.type == TreeNodeType.object || valueNode.type == TreeNodeType.array
        match getLabel (some st.text) en.parent valueNode with
        | none => Except.error "TypeError"
        | some lbl =>
          Except.ok ⟨lbl,
            (if hasChildren then
               if valueNode.type == TreeNodeType.object then CollapsibleState.expandedState
               else CollapsibleState.collapsedState
             else CollapsibleState.leafState),
            (valueNode.offset, valueNode.offset + valueNode.length),
            valueNode.type⟩
      | none => Except.error s!"Could not find node at {offset}"

/-- The whitespace characters stripped by `String.prototype.trim` (the ASCII
ones: space, tab, line feed, carriage return, vertical tab, form feed). -/
def isJsWhitespace (c : Char) : Bool :=
  c == ' ' || c == Char.ofNat 9 || c == Char.ofNat 10 || c == Char.ofNat 13
    || c == Char.ofNat 11 || c == Char.ofNat 12

/-- Models `s.trim()`. -/
def jsTrim (s : String) : String :=
  String.mk (((s.toList.dropWhile isJsWhitespace).reverse.dropWhile isJsWhitespace).reverse)

def jsonHexDigit (n : Nat) : Char :=
  if n < 10 then Char.ofNat (48 + n) else Char.ofNat (87 + n)

/-- How `JSON.stringify` escapes one character of a string. -/
def jsonEscapeChar (c : Char) : List Char :=
  if c == '"' then ['\\', '"']
  else if c == '\\' then ['\\', '\\']
  else if c == Char.ofNat 8 then ['\\', 'b']
  else if c == Char.ofNat 9 then ['\\', 't']
  else if c == Char.ofNat 10 then ['\\', 'n']
  else if c == Char.ofNat 12 then ['\\', 'f']
  else if c == Char.ofNat 13 then ['\\', 'r']
  else if c.toNat < 32 then
    ['\\', 'u', '0', '0', jsonHexDigit (c.toNat / 16), jsonHexDigit (c.toNat % 16)]
  else [c]

/-- Models `JSON.stringify(value)` for a string value: the JSON-quoted form. -/
def jsonStringifyString (s : String) : String :=
  "\"" ++ String.mk (s.toList.map jsonEscapeChar).flatten ++ "\""

/-- Models `formatYamlKey` (source lines 423-434): preserve the original key's
quoting style — when the existing key text, trimmed, starts with `"` or
`'`, wrap the new label in that same quote character, else insert it
unquoted. -/
def formatYamlKey (text : String) (value : String) (node : TreeNode) : String :=
  match node.keyOffset, node.keyLength with
  | some ko, some kl =>
    let existing := sliceText text ko kl
    let trimmed := jsTrim existing
    match trimmed.toList with
    | q :: _ =>
      if q == '"' || q == Char.ofNat 39 then String.mk [q] ++ value ++ String.mk [q]
      else value
    | [] => value
  | _, _ => value

/-- The text edit `rename` submits: replace `[startOffset, endOffset)` by
`replacement`. -/
structure TextEdit where
  startOffset : Nat
  endOffset : Nat
  replacement : String
deriving DecidableEq

/-- Models `targetNode.parent?.type === 'array'`. -/
def parentIsArrayType : Option TreeNode → Bool
  | some p => p.type == TreeNodeType.array
  | none => false

/-- Models `rename` (source lines 52-72) as the edit it computes: `promptValue` is
the input-box result (`none` for a cancelled prompt, i.e. JS
`null`/`undefined`).  The edit is `none` (a silent no-op) when the prompt
was cancelled, no editor or tree is loaded, the offset is unknown, the
target's parent is an array, or the target has no recorded key span;
otherwise the key span `[keyOffset, keyOffset + keyLength)` is replaced by
the format-aware replacement text. -/
def rename (st : ProviderState) (offset : Nat) (promptValue : Option String) :
    Option TextEdit :=
  match promptValue with
  | none => none
  | some value =>
    match st.editorPresent, st.tree, mapFind? (nodeMapOf st.tree) offset with
    | true, some _, some targetEntry =>
      let targetNode := targetEntry.node
      if parentIsArrayType targetEntry.parent
          || targetNode.keyOffset == none || targetNode.keyLength == none then
        none
      else
        let ko := targetNode.keyOffset.getD 0
        let kl := targetNode.keyLength.getD 0
        let replacement :=
          if isYamlLanguage st then formatYamlKey st.text value targetNode
          else jsonStringifyString value
        some ⟨ko, ko + kl, replacement⟩
    | _, _, _ => none

/-- The children-field invariant every built node satisfies: the field is
always present (both builders initialize `children: []`), and it stays the
empty list unless the node is an object/array. -/
def childrenOk (n : TreeNode) : Prop :=
  n.children ≠ none ∧ ((n.type = .object ∨ n.type = .array) ∨ n.children = some [])

/-- The jsonc-parser parse tree of the text `{"a":1}`: an object node, one
property node wrapping a string key and a number value. -/
def jsonDocA : JNode :=
  .mk "object" 0 7 JsAny.undef true
    [.mk "property" 1 5 JsAny.undef true
      [.mk "string" 1 3 (JsAny.str "a") false [],
       .mk "number" 5 1 (JsAny.num 1) false []]]

/-- A document whose declared language id is `plaintext` but whose text is
the JSON `{"a":1}`. -/
def plaintextInput : EditorInput :=
  ⟨"\x7b\"a\":1\x7d", "plaintext", some jsonDocA, none⟩

/-- The same document declared as `json`. -/
def jsonInput : EditorInput :=
  ⟨"\x7b\"a\":1\x7d", "json", some jsonDocA, none⟩

/-- The canonical node for the value `1` of `{"a":1}` — keyed `a`, with the
key span `[1, 1+3)` stamped from the collapsed property. -/
def jsonTreeAChild : TreeNode :=
  .mk 5 1 .number (JsAny.num 1) (JsAny.str "a") (some 1) (some 3) (some [])

/-- The canonical tree built from `jsonDocA`. -/
def jsonTreeA : TreeNode :=
  .mk 0 7 .object JsAny.undef JsAny.undef none none (some [jsonTreeAChild])

/-- The jsonc-parser parse tree of the text `1`. -/
def jsonDocNum : JNode := .mk "number" 0 1 (JsAny.num 1) false []

/-- The document `1` declared as `json`. -/
def jsonNumInput : EditorInput := ⟨"1", "json", some jsonDocNum, none⟩

/-- The jsonc-parser parse tree of the text `[true]`. -/
def jsonDocArr : JNode :=
  .mk "array" 0 6 JsAny.undef true [.mk "boolean" 1 4 (JsAny.boolv true) false []]

/-- The document `[true]` declared as `json`. -/
def jsonArrInput : EditorInput := ⟨"[true]", "json", some jsonDocArr, none⟩

/-- The canonical node for the `true` element of `[true]`. -/
def jsonArrChild : TreeNode :=
  .mk 1 4 .boolean (JsAny.boolv true) (JsAny.num 0) none none (some [])

/-- The canonical tree built from `jsonDocArr`. -/
def jsonArrTree : TreeNode :=
  .mk 0 6 .array JsAny.undef JsAny.undef none none (some [jsonArrChild])

/-- The yaml node graph of the document `a: 1`: map range `[0,4,4]`, key
scalar `a` with range `[0,1,2]`, value scalar `1` with range `[3,4,4]`. -/
def yamlDocPlain : YNode :=
  .map (.arr [.num 0, .num 4, .num 4]) JsAny.undef (some JsAny.objv) "a: 1"
    [.mk (some (.scalar (.arr [.num 0, .num 1, .num 2])
                 (JsAny.str "a") (some (JsAny.str "a")) "a"))
         (some (.scalar (.arr [.num 3, .num 4, .num 4])
                 (JsAny.num 1) (some (JsAny.num 1)) "1"))]

/-- The document `a: 1` declared as `yaml`. -/
def yamlPlainInput : EditorInput := ⟨"a: 1", "yaml", none, some yamlDocPlain⟩

/-- The yaml node graph of the document `"old": 1`: the key scalar's
decoded value is `old`, its range `[0,5,6]` spanning the quoted text. -/
def yamlDocQuoted : YNode :=
  .map (.arr [.num 0, .num 8, .num 8]) JsAny.undef (some JsAny.objv) "\"old\": 1"
    [.mk (some (.scalar (.arr [.num 0, .num 5, .num 6])
                 (JsAny.str "old") (some (JsAny.str "old")) "old"))
         (some (.scalar (.arr [.num 7, .num 8, .num 8])
                 (JsAny.num 1) (some (JsAny.num 1)) "1"))]

/-- The document `"old": 1` declared as `yaml`. -/
def yamlQuotedInput : EditorInput := ⟨"\"old\": 1", "yaml", none, some yamlDocQuoted⟩

/-- The yaml node graph of the document `a:` — one mapping entry whose
value is absent (null): map range `[0,2,2]`, key scalar range `[0,1,2]`. -/
def yamlDocAbsent : YNode :=
  .map (.arr [.num 0, .num 2, .num 2]) JsAny.undef (some JsAny.objv) "a:"
    [.mk (some (.scalar (.arr [.num 0, .num 1, .num 2])
                 (JsAny.str "a") (some (JsAny.str "a")) "a")) none]

/-- The yaml node graph of the document `:` — a mapping with a single pair
whose key and value are both null; the map's range is `[0,1,2]`. -/
def yamlDocEmptyPair : YNode :=
  .map (.arr [.num 0, .num 1, .num 2]) JsAny.undef (some JsAny.objv) ":" [.mk none none]

/-- The synthesized null node `buildYamlTree` creates for the empty pair of
`yamlDocEmptyPair`: with no key span it is placed at the parent's offset 0. -/
def yamlEmptyPairNull : TreeNode :=
  .mk 0 0 .null JsAny.undef JsAny.undef none (some 0) (some [])

/-- The root mapping node built from `yamlDocEmptyPair` — same offset 0. -/
def yamlEmptyPairRoot : TreeNode :=
  .mk 0 1 .object JsAny.objv JsAny.undef none none (some [yamlEmptyPairNull])

theorem TreeNode.stampKey_type (c : TreeNode) (a b : Nat) :
    (c.stampKey a b).type = c.type := by
  cases c
  rfl

theorem TreeNode.stampKey_children (c : TreeNode) (a b : Nat) :
    (c.stampKey a b).children = c.children := by
  cases c
  rfl

theorem TreeNode.stampKey_offset (c : TreeNode) (a b : Nat) :
    (c.stampKey a b).offset = c.offset := by
  cases c
  rfl

theorem entriesOf_eq (par : Option TreeNode) (t : TreeNode) :
    entriesOf par t = (t.offset, ⟨t, par⟩) :: entriesOfChildren t t.children := by
  cases t
  rfl

theorem reachable_eq (t : TreeNode) :
    reachable t = t :: (entriesOfChildren t t.children).map fun e => e.2.node := by
  cases t
  rfl

theorem entriesOf_map_node (par : Option TreeNode) (t : TreeNode) :
    (entriesOf par t).map (fun e => e.2.node) = reachable t := by
  cases t
  rfl

theorem entriesOfChildren_some (par : TreeNode) (cs : List TreeNode) :
    entriesOfChildren par (some cs) = entriesOfList par cs := rfl

theorem entriesOfList_map_node (par : TreeNode) (cs : List TreeNode) :
    (entriesOfList par cs).map (fun e => e.2.node) = (cs.map reachable).flatten := by
  induction cs with
  | nil => rfl
  | cons c rest ih =>
    simp only [entriesOfList, List.map_append, List.map_cons, List.flatten_cons,
      entriesOf_map_node, ih]

theorem mem_reachable_iff (n t : TreeNode) :
    n ∈ reachable t ↔ n = t ∨ ∃ c ∈ t.children.getD [], n ∈ reachable c := by
  cases t with
  | mk o l ty v k ko kl ch =>
    cases ch with
    | none =>
      simp [reachable_eq, entriesOfChildren, TreeNode.children]
    | some cs =>
      rw [reachable_eq]
      simp only [TreeNode.children, entriesOfChildren_some, entriesOfList_map_node,
        List.mem_cons, List.mem_flatten, List.mem_map, Option.getD_some]
      constructor
      · rintro (rfl | ⟨_, ⟨c, hc, rfl⟩, hn⟩)
        · exact Or.inl rfl
        · exact Or.inr ⟨c, hc, hn⟩
      · rintro (rfl | ⟨c, hc, hn⟩)
        · exact Or.inl rfl
        · exact Or.inr ⟨reachable c, ⟨c, hc, rfl⟩, hn⟩

theorem self_mem_reachable (t : TreeNode) : t ∈ reachable t := by
  rw [mem_reachable_iff]; exact Or.inl rfl

theorem mem_entriesOfList_of_mem (par : TreeNode) {cs : List TreeNode} {c : TreeNode}
    (hc : c ∈ cs) {x : Nat × Entry} (hx : x ∈ entriesOf (some par) c) :
    x ∈ entriesOfList par cs := by
  induction cs with
  | nil => cases hc
  | cons d ds ih =>
    rcases List.mem_cons.mp hc with h | h
    · subst h; exact List.mem_append_left _ hx
    · exact List.mem_append_right _ (ih h)

theorem child_entry_mem (par : Option TreeNode) (t c : TreeNode)
    (hc : c ∈ t.children.getD []) :
    (c.offset, Entry.mk c (some t)) ∈ entriesOf par t := by
  rw [entriesOf_eq]
  apply List.mem_cons_of_mem
  cases t with
  | mk o l ty v k ko kl ch =>
    cases ch with
    | none => simp [TreeNode.children] at hc
    | some cs =>
      simp only [TreeNode.children, Option.getD_some] at hc
      simp only [TreeNode.children, entriesOfChildren_some]
      refine mem_entriesOfList_of_mem _ hc ?_
      rw [entriesOf_eq]
      exact List.mem_cons_self _ _

theorem sizeOf_lt_of_treeChild {c : TreeNode} {cs : List TreeNode} (hc : c ∈ cs)
    (o l : Nat) (ty : TreeNodeType) (v k : JsAny) (ko kl : Option Nat) :
    sizeOf c < sizeOf (TreeNode.mk o l ty v k ko kl (some cs)) := by
  have h1 := List.sizeOf_lt_of_mem hc
  have h2 : sizeOf (some cs) = 1 + sizeOf cs := rfl
  simp only [TreeNode.mk.sizeOf_spec]
  omega

theorem reachable_entry_aux : ∀ (fuel : Nat) (t : TreeNode), sizeOf t ≤ fuel →
    ∀ (par : Option TreeNode) (n : TreeNode), n ∈ reachable t →
    ∃ en : Entry, (n.offset, en) ∈ entriesOf par t ∧ en.node = n := by
  intro fuel
  induction fuel with
  | zero =>
    intro t ht
    cases t with
    | mk o l ty v k ko kl ch => simp only [TreeNode.mk.sizeOf_spec] at ht; omega
  | succ m ih =>
    intro t ht par n hn
    rcases (mem_reachable_iff n t).mp hn with rfl | ⟨c, hc, hnc⟩
    · refine ⟨⟨n, par⟩, ?_, rfl⟩
      rw [entriesOf_eq]
      exact List.mem_cons_self _ _
    · cases t with
      | mk o l ty v k ko kl ch =>
        cases ch with
        | none => simp [TreeNode.children] at hc
        | some cs =>
          simp only [TreeNode.children, Option.getD_some] at hc
          have hsz : sizeOf c ≤ m := by
            have := sizeOf_lt_of_treeChild hc o l ty v k ko kl
            omega
          obtain ⟨en, hmem, hen⟩ :=
            ih c hsz (some (.mk o l ty v k ko kl (some cs))) n hnc
          refine ⟨en, ?_, hen⟩
          rw [entriesOf_eq]
          apply List.mem_cons_of_mem
          simp only [TreeNode.children, entriesOfChildren_some]
          exact mem_entriesOfList_of_mem _ hc hmem

/-- Every node reachable from the root has an entry in the node map keyed by
its own offset (the entry value may later be overwritten by a colliding
offset, but the insertion itself always happens). -/
theorem reachable_entry (t : TreeNode) (par : Option TreeNode) (n : TreeNode)
    (hn : n ∈ reachable t) :
    ∃ en : Entry, (n.offset, en) ∈ entriesOf par t ∧ en.node = n :=
  reachable_entry_aux (sizeOf t) t le_rfl par n hn

theorem mem_buildJsonObjChildren {cs : List JNode} {t : TreeNode}
    (h : t ∈ buildJsonObjChildren cs) :
    ∃ c ∈ cs, buildJsonNode c JsAny.undef = some t := by
  induction cs with
  | nil => cases h
  | cons c rest ih =>
    rw [buildJsonObjChildren] at h
    cases hb : buildJsonNode c JsAny.undef with
    | some u =>
      rw [hb] at h
      rcases List.mem_cons.mp h with rfl | h2
      · exact ⟨c, List.mem_cons_self _ _, hb⟩
      · obtain ⟨d, hd, hdb⟩ := ih h2
        exact ⟨d, List.mem_cons_of_mem _ hd, hdb⟩
    | none =>
      rw [hb] at h
      obtain ⟨d, hd, hdb⟩ := ih h
      exact ⟨d, List.mem_cons_of_mem _ hd, hdb⟩

theorem mem_buildJsonArrChildren : ∀ {cs : List JNode} {i : Nat} {t : TreeNode},
    t ∈ buildJsonArrChildren cs i →
    ∃ c ∈ cs, ∃ key : JsAny, buildJsonNode c key = some t := by
  intro cs
  induction cs with
  | nil => intro i t h; cases h
  | cons c rest ih =>
    intro i t h
    rw [buildJsonArrChildren] at h
    cases hb : buildJsonNode c (JsAny.num (Int.ofNat i)) with
    | some u =>
      rw [hb] at h
      rcases List.mem_cons.mp h with rfl | h2
      · exact ⟨c, List.mem_cons_self _ _, _, hb⟩
      · obtain ⟨d, hd, key, hdb⟩ := ih h2
        exact ⟨d, List.mem_cons_of_mem _ hd, key, hdb⟩
    | none =>
      rw [hb] at h
      obtain ⟨d, hd, key, hdb⟩ := ih h
      exact ⟨d, List.mem_cons_of_mem _ hd, key, hdb⟩

theorem buildYamlPairs_eq_filterMap (po : Nat) (items : List YPair) :
    buildYamlPairs po items = items.filterMap (buildYamlPair po) := by
  induction items with
  | nil => rfl
  | cons p rest ih =>
    rw [buildYamlPairs, List.filterMap_cons]
    cases hb : buildYamlPair po p with
    | some c => rw [ih]
    | none => rw [ih]

theorem mem_buildYamlSeqChildren : ∀ {its : List YNode} {i : Nat} {t : TreeNode},
    t ∈ buildYamlSeqChildren its i →
    ∃ y ∈ its, ∃ key : JsAny, buildYamlTree y key = some t := by
  intro its
  induction its with
  | nil => intro i t h; cases h
  | cons y rest ih =>
    intro i t h
    rw [buildYamlSeqChildren] at h
    cases hb : buildYamlTree y (JsAny.num (Int.ofNat i)) with
    | some u =>
      rw [hb] at h
      rcases List.mem_cons.mp h with rfl | h2
      · exact ⟨y, List.mem_cons_self _ _, _, hb⟩
      · obtain ⟨d, hd, key, hdb⟩ := ih h2
        exact ⟨d, List.mem_cons_of_mem _ hd, key, hdb⟩
    | none =>
      rw [hb] at h
      obtain ⟨d, hd, key, hdb⟩ := ih h
      exact ⟨d, List.mem_cons_of_mem _ hd, key, hdb⟩

theorem sizeOf_lt_of_jsonChild {c : JNode} {cs : List JNode} (hc : c ∈ cs)
    (ty : String) (o l : Nat) (v : JsAny) (hcb : Bool) :
    sizeOf c < sizeOf (JNode.mk ty o l v hcb cs) := by
  have h1 := List.sizeOf_lt_of_mem hc
  simp only [JNode.mk.sizeOf_spec]
  omega

theorem normalizeNodeType_of_object {ty : String} (h : (ty == "object") = true) :
    normalizeNodeType ty = .object := by
  rw [normalizeNodeType, if_pos h]

theorem normalizeNodeType_of_array {ty : String} (h : (ty == "array") = true) :
    normalizeNodeType ty = .array := by
  have hobj : (ty == "object") = false := by
    cases hb : (ty == "object") with
    | false => rfl
    | true =>
      have h1 : ty = "object" := by simpa using hb
      have h2 : ty = "array" := by simpa using h
      rw [h1] at h2
      exact absurd h2 (by decide)
  rw [normalizeNodeType, if_neg (by simp [hobj]), if_pos h]

theorem buildJson_ok_aux : ∀ (fuel : Nat) (j : JNode), sizeOf j ≤ fuel →
    ∀ (key : JsAny) (t : TreeNode), buildJsonNode j key = some t →
    ∀ n ∈ reachable t, childrenOk n := by
  intro fuel
  induction fuel with
  | zero =>
    intro j hj
    cases j with
    | mk ty o l v hcb cs => simp only [JNode.mk.sizeOf_spec] at hj; omega
  | succ m ih =>
    intro j hj key t hbuild n hn
    cases j with
    | mk ty off len val hcb cs =>
      rw [buildJsonNode] at hbuild
      by_cases hguard : (ty == "property" && hcb && !cs.isEmpty) = true
      · rw [if_pos hguard] at hbuild
        cases cs with
        | nil => rw [buildJsonPropNode] at hbuild; cases hbuild
        | cons keyNode rest =>
          cases rest with
          | nil => simp only [buildJsonPropNode] at hbuild; cases hbuild
          | cons valueNode rest2 =>
            simp only [buildJsonPropNode] at hbuild
            cases hb : buildJsonNode valueNode keyNode.value with
            | none => rw [hb] at hbuild; cases hbuild
            | some child =>
              rw [hb] at hbuild
              injection hbuild with hbuild
              subst hbuild
              have hszv : sizeOf valueNode ≤ m := by
                have hmem : valueNode ∈ keyNode :: valueNode :: rest2 :=
                  List.mem_cons_of_mem _ (List.mem_cons_self _ _)
                have := sizeOf_lt_of_jsonChild hmem ty off len val hcb
                omega
              have hch := ih valueNode hszv keyNode.value child hb
              rcases (mem_reachable_iff n _).mp hn with rfl | ⟨cc, hcc, hncc⟩
              · have hok := hch child (self_mem_reachable child)
                unfold childrenOk at hok ⊢
                rw [TreeNode.stampKey_children, TreeNode.stampKey_type]
                exact hok
              · rw [TreeNode.stampKey_children] at hcc
                exact hch n ((mem_reachable_iff n child).mpr (Or.inr ⟨cc, hcc, hncc⟩))
      · rw [if_neg hguard] at hbuild
        injection hbuild with hbuild
        subst hbuild
        rcases (mem_reachable_iff n _).mp hn with rfl | ⟨cc, hcc, hncc⟩
        · constructor
          · simp [TreeNode.children]
          · by_cases hobj : (ty == "object") = true
            · exact Or.inl (Or.inl (by simp [TreeNode.type, normalizeNodeType_of_object hobj]))
            · by_cases harr : (ty == "array") = true
              · exact Or.inl (Or.inr (by simp [TreeNode.type, normalizeNodeType_of_array harr]))
              · refine Or.inr ?_
                simp only [TreeNode.children, Option.some.injEq]
                rw [Bool.not_eq_true] at hobj harr
                cases hcb with
                | false => simp
                | true => simp [hobj, harr]
        · simp only [TreeNode.children, Option.getD_some] at hcc
          cases hcb with
          | false =>
            simp only [Bool.false_eq_true, if_false] at hcc
            cases hcc
          | true =>
            simp only [if_true] at hcc
            by_cases hobj : (ty == "object") = true
            · rw [if_pos hobj] at hcc
              obtain ⟨c', hc', hcb'⟩ := mem_buildJsonObjChildren hcc
              have hsz : sizeOf c' ≤ m := by
                have := sizeOf_lt_of_jsonChild hc' ty off len val true
                omega
              exact ih c' hsz JsAny.undef cc hcb' n hncc
            · rw [if_neg hobj] at hcc
              by_cases harr : (ty == "array") = true
              · rw [if_pos harr] at hcc
                obtain ⟨c', hc', key', hcb'⟩ := mem_buildJsonArrChildren hcc
                have hsz : sizeOf c' ≤ m := by
                  have := sizeOf_lt_of_jsonChild hc' ty off len val true
                  omega
                exact ih c' hsz key' cc hcb' n hncc
              · rw [if_neg harr] at hcc
                cases hcc

theorem sizeOf_lt_of_pairValue {vn : YNode} {pk : Option YNode} {items : List YPair}
    (hp : YPair.mk pk (some vn) ∈ items) (r : RangeRep) (v : JsAny)
    (tj : Option JsAny) (sr : String) :
    sizeOf vn < sizeOf (YNode.map r v tj sr items) := by
  have h1 := List.sizeOf_lt_of_mem hp
  have h2 : sizeOf (YPair.mk pk (some vn)) = 1 + sizeOf pk + (1 + sizeOf vn) := by
    simp [YPair.mk.sizeOf_spec]
  simp only [YNode.map.sizeOf_spec]
  omega

theorem sizeOf_lt_of_seqItem {y : YNode} {items : List YNode}
    (hy : y ∈ items) (r : RangeRep) (v : JsAny) (tj : Option JsAny) (sr : String) :
    sizeOf y < sizeOf (YNode.seq r v tj sr items) := by
  have h1 := List.sizeOf_lt_of_mem hy
  simp only [YNode.seq.sizeOf_spec]
  omega

theorem buildYaml_ok_aux : ∀ (fuel : Nat) (y : YNode), sizeOf y ≤ fuel →
    ∀ (key : JsAny) (t : TreeNode), buildYamlTree y key = some t →
    ∀ n ∈ reachable t, childrenOk n := by
  intro fuel
  induction fuel with
  | zero =>
    intro y hy
    cases y with
    | map r v tj sr items => simp only [YNode.map.sizeOf_spec] at hy; omega
    | seq r v tj sr items => simp only [YNode.seq.sizeOf_spec] at hy; omega
    | scalar r v tj sr => simp only [YNode.scalar.sizeOf_spec] at hy; omega
  | succ m ih =>
    intro y hy key t hbuild n hn
    cases y with
    | map r v tj sr items =>
      rw [buildYamlTree] at hbuild
      cases hr : getYamlRange r with
      | none => rw [hr] at hbuild; cases hbuild
      | some se =>
        obtain ⟨s, e⟩ := se
        rw [hr] at hbuild
        injection hbuild with hbuild
        subst hbuild
        rcases (mem_reachable_iff n _).mp hn with rfl | ⟨cc, hcc, hncc⟩
        · exact ⟨by simp [TreeNode.children], Or.inl (Or.inl (by simp [TreeNode.type, getYamlNodeType]))⟩
        · simp only [TreeNode.children, Option.getD_some] at hcc
          rw [buildYamlPairs_eq_filterMap] at hcc
          obtain ⟨p, hp, hpb⟩ := List.mem_filterMap.mp hcc
          cases p with
          | mk pk pv =>
            cases pv with
            | some vn =>
              simp only [buildYamlPair] at hpb
              cases hb : buildYamlTree vn (getYamlPairKey (.mk pk (some vn))) with
              | none => rw [hb] at hpb; cases hpb
              | some childNode =>
                rw [hb] at hpb
                have hszv : sizeOf vn ≤ m := by
                  have := sizeOf_lt_of_pairValue hp r v tj sr
                  omega
                have hok := ih vn hszv _ childNode hb
                cases hkr : getYamlRangeOfKey pk with
                | some kr =>
                  obtain ⟨ks, ke⟩ := kr
                  rw [hkr] at hpb
                  injection hpb with hpb
                  subst hpb
                  rcases (mem_reachable_iff n _).mp hncc with rfl | ⟨dd, hdd, hndd⟩
                  · have hch := hok childNode (self_mem_reachable childNode)
                    unfold childrenOk at hch ⊢
                    rw [TreeNode.stampKey_children, TreeNode.stampKey_type]
                    exact hch
                  · rw [TreeNode.stampKey_children] at hdd
                    exact hok n ((mem_reachable_iff n childNode).mpr (Or.inr ⟨dd, hdd, hndd⟩))
                | none =>
                  rw [hkr] at hpb
                  injection hpb with hpb
                  subst hpb
                  exact hok n hncc
            | none =>
              simp only [buildYamlPair] at hpb
              injection hpb with hpb
              subst hpb
              rcases (mem_reachable_iff n _).mp hncc with rfl | ⟨dd, hdd, hndd⟩
              · exact ⟨by simp [TreeNode.children], Or.inr (by simp [TreeNode.children])⟩
              · simp [TreeNode.children] at hdd
    | seq r v tj sr items =>
      rw [buildYamlTree] at hbuild
      cases hr : getYamlRange r with
      | none => rw [hr] at hbuild; cases hbuild
      | some se =>
        obtain ⟨s, e⟩ := se
        rw [hr] at hbuild
        injection hbuild with hbuild
        subst hbuild
        rcases (mem_reachable_iff n _).mp hn with rfl | ⟨cc, hcc, hncc⟩
        · exact ⟨by simp [TreeNode.children], Or.inl (Or.inr (by simp [TreeNode.type, getYamlNodeType]))⟩
        · simp only [TreeNode.children, Option.getD_some] at hcc
          obtain ⟨y', hy', key', hyb⟩ := mem_buildYamlSeqChildren hcc
          have hsz : sizeOf y' ≤ m := by
            have := sizeOf_lt_of_seqItem hy' r v tj sr
            omega
          exact ih y' hsz key' cc hyb n hncc
    | scalar r v tj sr =>
      rw [buildYamlTree] at hbuild
      cases hr : getYamlRange r with
      | none => rw [hr] at hbuild; cases hbuild
      | some se =>
        obtain ⟨s, e⟩ := se
        rw [hr] at hbuild
        injection hbuild with hbuild
        subst hbuild
        rcases (mem_reachable_iff n _).mp hn with rfl | ⟨cc, hcc, hncc⟩
        · exact ⟨by simp [TreeNode.children], Or.inr (by simp [TreeNode.children])⟩
        · simp [TreeNode.children] at hcc

theorem buildJsonObjChildren_eq_filterMap (cs : List JNode) :
    buildJsonObjChildren cs = cs.filterMap (fun c => buildJsonNode c JsAny.undef) := by
  induction cs with
  | nil => rfl
  | cons c rest ih =>
    rw [buildJsonObjChildren, List.filterMap_cons]
    cases hb : buildJsonNode c JsAny.undef with
    | some u => rw [ih]
    | none => rw [ih]

/-- C1 counterexample: a document whose declared language id is
`plaintext` (not `json`/`jsonc`/`yaml`) but whose text is the JSON
`{"a":1}` parses to a NON-empty tree — the dispatch in `parseTree` only
special-cases `yaml` and routes every other language id to the JSON parser
— and the root child enumeration is `[5]`, not empty.  This refutes the
claim that such documents yield an empty tree and empty child
enumerations. -/
theorem claim_C1_counterexample :
    (parseTree (some plaintextInput)).tree = some jsonTreeA ∧
    getChildren (parseTree (some plaintextInput)) none = [5] ∧
    getChildren (parseTree (some plaintextInput)) none ≠ [] :=
  ⟨rfl, rfl, by decide⟩

/-- C1 (amended): a document with any declared language id other than
`yaml` — including unrecognized ids such as `plaintext` — is routed to the
JSON parser: the resulting tree is exactly the JSON builder's output on the
JSON parse result, so it is empty only when the JSON parser returns no
root. -/
theorem claim_C1_amended (inp : EditorInput) (h : inp.languageId ≠ "yaml") :
    (parseTree (some inp)).tree = buildJsonTree inp.jsonParseResult JsAny.undef := by
  cases inp with
  | mk text lang jzon yml =>
    have hb : (lang == "yaml") = false := by simpa using h
    simp only [parseTree, hb, Bool.false_eq_true, if_false]
    cases jzon with
    | none => rfl
    | some p => rfl

theorem claim_C1_amended_witness :
    plaintextInput.languageId ≠ "yaml" ∧
    (parseTree (some plaintextInput)).tree
      = buildJsonTree plaintextInput.jsonParseResult JsAny.undef :=
  ⟨by decide, claim_C1_amended plaintextInput (by decide)⟩

/-- C4 counterexample: the yaml document `:` — a mapping with one entry
whose key and value are both null — builds a tree in which the synthesized
null node falls back to the parent mapping's own offset 0 (the null key has
no resolvable span).  Two distinct reachable nodes then share offset 0, and
the later `nodeMap.set` overwrites the root's entry with the null node's,
refuting offset uniqueness and no-overwrite. -/
theorem claim_C4_counterexample :
    buildYamlTree yamlDocEmptyPair JsAny.undef = some yamlEmptyPairRoot ∧
    reachable yamlEmptyPairRoot = [yamlEmptyPairRoot, yamlEmptyPairNull] ∧
    yamlEmptyPairRoot ≠ yamlEmptyPairNull ∧
    TreeNode.offset yamlEmptyPairRoot = TreeNode.offset yamlEmptyPairNull ∧
    mapFind? (nodeMapOf (some yamlEmptyPairRoot)) 0
      = some (Entry.mk yamlEmptyPairNull (some yamlEmptyPairRoot)) := by
  refine ⟨rfl, rfl, ?_, rfl, rfl⟩
  intro h
  have hl := congrArg TreeNode.length h
  simp [yamlEmptyPairRoot, yamlEmptyPairNull, TreeNode.length] at hl

/-- C4 (amended): after every successful parse (either builder), every
TreeNode reachable from the root has been inserted into the offset index
under its own offset; but offsets are not unique — a collision is possible
(see the counterexample) and then the later insertion overwrites the
earlier entry. -/
theorem claim_C4_amended (t n : TreeNode) (hn : n ∈ reachable t) :
    ∃ en : Entry, (n.offset, en) ∈ nodeMapOf (some t) ∧ en.node = n :=
  reachable_entry t none n hn

theorem claim_C4_amended_witness :
    yamlEmptyPairNull ∈ reachable yamlEmptyPairRoot ∧
    ∃ en : Entry,
      (TreeNode.offset yamlEmptyPairNull, en) ∈ nodeMapOf (some yamlEmptyPairRoot)
        ∧ en.node = yamlEmptyPairNull := by
  have hmem : yamlEmptyPairNull ∈ reachable yamlEmptyPairRoot := by
    rw [show reachable yamlEmptyPairRoot = [yamlEmptyPairRoot, yamlEmptyPairNull] from rfl]
    exact List.mem_cons_of_mem _ (List.mem_cons_self _ _)
  exact ⟨hmem, claim_C4_amended yamlEmptyPairRoot yamlEmptyPairNull hmem⟩

/-- C7: a rename whose target entry has an array-typed parent, or whose
target node lacks a recorded `keyOffset` or `keyLength`, is a silent
no-op: no text edit is produced, for any prompt result. -/
theorem claim_C7 (st : ProviderState) (offset : Nat) (pv : Option String) (en : Entry)
    (hlookup : mapFind? (nodeMapOf st.tree) offset = some en)
    (h : parentIsArrayType en.parent = true
        ∨ en.node.keyOffset = none ∨ en.node.keyLength = none) :
    rename st offset pv = none := by
  cases pv with
  | none => rfl
  | some v =>
    simp only [rename]
    cases hed : st.editorPresent with
    | false => rfl
    | true =>
      cases htr : st.tree with
      | none => rfl
      | some tr =>
        rw [htr] at hlookup
        rw [hlookup]
        have hcond : (parentIsArrayType en.parent || en.node.keyOffset == none
            || en.node.keyLength == none) = true := by
          rcases h with h | h | h
          · simp [h]
          · simp [h]
          · simp [h]
        simp [hcond]

theorem claim_C7_witness :
    mapFind? (nodeMapOf (parseTree (some jsonArrInput)).tree) 1
      = some (Entry.mk jsonArrChild (some jsonArrTree)) ∧
    rename (parseTree (some jsonArrInput)) 1 (some "x") = none :=
  ⟨rfl, claim_C7 (parseTree (some jsonArrInput)) 1 (some "x")
    (Entry.mk jsonArrChild (some jsonArrTree)) rfl (Or.inl rfl)⟩

/-- C8 counterexample: with a loaded tree (document `1`), requesting
children for offset 99 — absent from the offset index — returns the empty
list and raises no error, while `getTreeItem` for the same offset does
throw.  This refutes the claim that a stale offset is a hard error for
child enumeration as well. -/
theorem claim_C8_counterexample :
    (parseTree (some jsonNumInput)).tree.isSome = true ∧
    mapFind? (nodeMapOf (parseTree (some jsonNumInput)).tree) 99 = none ∧
    getChildren (parseTree (some jsonNumInput)) (some 99) = [] ∧
    getTreeItem (parseTree (some jsonNumInput)) 99
      = Except.error "Could not find node at 99" :=
  ⟨rfl, rfl, rfl, rfl⟩

/-- C8 (amended): `getTreeItem` fails loudly — missing tree, missing
editor, or an offset not in the index throw — while `getChildren` never
fails: with no tree it returns the empty list, and a truthy offset that is
not in the index also yields the empty list. -/
theorem claim_C8_amended (st : ProviderState) (o : Nat) :
    (st.tree = none → getTreeItem st o = Except.error "Invalid tree") ∧
    (st.tree.isSome = true → st.editorPresent = false →
      getTreeItem st o = Except.error "Invalid editor") ∧
    (st.tree.isSome = true → st.editorPresent = true →
      mapFind? (nodeMapOf st.tree) o = none →
      getTreeItem st o = Except.error s!"Could not find node at {o}") ∧
    (st.tree = none → getChildren st (some o) = [] ∧ getChildren st none = []) ∧
    (st.tree.isSome = true → o ≠ 0 → mapFind? (nodeMapOf st.tree) o = none →
      getChildren st (some o) = []) := by
  refine ⟨?_, ?_, ?_, ?_, ?_⟩
  · intro h
    simp only [getTreeItem, h]
  · intro htr hed
    obtain ⟨tr, htr'⟩ := Option.isSome_iff_exists.mp htr
    simp only [getTreeItem, htr', hed, Bool.not_false, if_true]
  · intro htr hed hlookup
    obtain ⟨tr, htr'⟩ := Option.isSome_iff_exists.mp htr
    rw [htr'] at hlookup
    simp only [getTreeItem, htr', hed, Bool.not_true, Bool.false_eq_true, if_false, hlookup]
  · intro h
    constructor
    · simp only [getChildren, h, Option.isSome_none, Bool.and_false, Bool.false_eq_true,
        if_false]
    · simp only [getChildren, h, offsetTruthy, Bool.false_and, Bool.false_eq_true, if_false]
  · intro htr ho hlookup
    obtain ⟨tr, htr'⟩ := Option.isSome_iff_exists.mp htr
    rw [htr'] at hlookup
    have hot : offsetTruthy (some o) = true := by simp [offsetTruthy, ho]
    simp only [getChildren, htr', hot, Option.isSome_some, Bool.and_self, if_true,
      Option.getD_some, hlookup]

theorem claim_C8_amended_witness :
    getTreeItem (parseTree none) 5 = Except.error "Invalid tree" ∧
    getChildren (parseTree (some jsonNumInput)) (some 99) = [] :=
  ⟨(claim_C8_amended (parseTree none) 5).1 rfl,
   (claim_C8_amended (parseTree (some jsonNumInput)) 99).2.2.2.2 rfl (by decide) rfl⟩

/-- C9 counterexample: the scalar document `1` builds a root TreeNode of
type number whose `children` field is PRESENT (the empty array) — both
builders initialize `children: []` for every node — refuting the claim
that the field is absent for scalar nodes. -/
theorem claim_C9_counterexample :
    buildJsonTree (some jsonDocNum) JsAny.undef
      = some (.mk 0 1 .number (JsAny.num 1) JsAny.undef none none (some [])) ∧
    (TreeNode.mk 0 1 .number (JsAny.num 1) JsAny.undef none none (some [])).children
      = some [] ∧
    (TreeNode.mk 0 1 .number (JsAny.num 1) JsAny.undef none none (some [])).children
      ≠ none :=
  ⟨rfl, rfl, by simp [TreeNode.children]⟩

/-- C9 (amended): for every node reachable in a tree produced by either
builder, the `children` field is always present (both builders initialize
it to `[]`), and it is the empty list whenever the node's type is not
object/array. -/
theorem claim_C9_amended :
    (∀ (j : JNode) (key : JsAny) (t : TreeNode), buildJsonTree (some j) key = some t →
      ∀ n ∈ reachable t, childrenOk n) ∧
    (∀ (y : YNode) (key : JsAny) (t : TreeNode), buildYamlTree y key = some t →
      ∀ n ∈ reachable t, childrenOk n) :=
  ⟨fun j key t hb n hn => buildJson_ok_aux (sizeOf j) j le_rfl key t hb n hn,
   fun y key t hb n hn => buildYaml_ok_aux (sizeOf y) y le_rfl key t hb n hn⟩

theorem claim_C9_amended_witness :
    buildJsonTree (some jsonDocNum) JsAny.undef
        = some (.mk 0 1 .number (JsAny.num 1) JsAny.undef none none (some [])) ∧
    childrenOk (.mk 0 1 .number (JsAny.num 1) JsAny.undef none none (some [])) :=
  ⟨rfl, claim_C9_amended.1 jsonDocNum JsAny.undef
    (.mk 0 1 .number (JsAny.num 1) JsAny.undef none none (some [])) rfl
    (.mk 0 1 .number (JsAny.num 1) JsAny.undef none none (some []))
    (self_mem_reachable _)⟩

/-- C2: for every yaml mapping with a resolvable range, every entry whose
value is absent yields — among the built node's children — a synthesized
TreeNode of type null with length 0, positioned at the end of the key's
resolved span (or at the mapping's own offset when the key has no
resolvable span), carrying the entry's key, and inserted into the offset
index (keyed by its offset, with the mapping as its parent). -/
theorem claim_C2 (r : RangeRep) (v : JsAny) (tj : Option JsAny) (sr : String)
    (items : List YPair) (key : JsAny) (s e : Nat) (i : Nat) (pk : Option YNode)
    (hr : getYamlRange r = some (s, e))
    (hi : items[i]? = some (YPair.mk pk none)) :
    ∃ t, buildYamlTree (YNode.map r v tj sr items) key = some t ∧
      ∃ c ∈ t.children.getD [],
        c.type = TreeNodeType.null ∧ c.length = 0 ∧
        c.offset = (match getYamlRangeOfKey pk with
                    | some (_, ke) => ke
                    | none => s) ∧
        c.key = getYamlPairKey (YPair.mk pk none) ∧
        (c.offset, Entry.mk c (some t)) ∈ nodeMapOf (some t) := by
  have hpair : YPair.mk pk none ∈ items := List.getElem?_mem hi
  refine ⟨.mk s (e - s) (getYamlNodeType (.map r v tj sr items))
    (getYamlValue (.map r v tj sr items)) key none none
    (some (buildYamlPairs s items)), ?_, ?_⟩
  · rw [buildYamlTree, hr]
  · have hpb : buildYamlPair s (YPair.mk pk none)
        = some (.mk (match getYamlRangeOfKey pk with
                     | some (_, ke) => ke
                     | none => s) 0 .null JsAny.undef
            (getYamlPairKey (YPair.mk pk none))
            ((getYamlRangeOfKey pk).map Prod.fst)
            (some (match getYamlRangeOfKey pk with
                   | some (ks, ke) => ke - ks
                   | none => 0)) (some [])) := rfl
    have hcmem : (TreeNode.mk (match getYamlRangeOfKey pk with
                     | some (_, ke) => ke
                     | none => s) 0 .null JsAny.undef
            (getYamlPairKey (YPair.mk pk none))
            ((getYamlRangeOfKey pk).map Prod.fst)
            (some (match getYamlRangeOfKey pk with
                   | some (ks, ke) => ke - ks
                   | none => 0)) (some []))
        ∈ buildYamlPairs s items := by
      rw [buildYamlPairs_eq_filterMap]
      exact List.mem_filterMap.mpr ⟨_, hpair, hpb⟩
    refine ⟨.mk (match getYamlRangeOfKey pk with
                 | some (_, ke) => ke
                 | none => s) 0 .null JsAny.undef
        (getYamlPairKey (YPair.mk pk none))
        ((getYamlRangeOfKey pk).map Prod.fst)
        (some (match getYamlRangeOfKey pk with
               | some (ks, ke) => ke - ks
               | none => 0)) (some []), ?_, rfl, rfl, rfl, rfl, ?_⟩
    · simpa [TreeNode.children] using hcmem
    · exact child_entry_mem none _ _ (by simpa [TreeNode.children] using hcmem)

theorem claim_C2_witness :
    ∃ t, buildYamlTree yamlDocAbsent JsAny.undef = some t ∧
      ∃ c ∈ t.children.getD [],
        c.type = TreeNodeType.null ∧ c.length = 0 ∧
        c.offset = 1 ∧ c.key = JsAny.str "a" ∧
        (c.offset, Entry.mk c (some t)) ∈ nodeMapOf (some t) := by
  have h := claim_C2 (.arr [.num 0, .num 2, .num 2]) JsAny.undef (some JsAny.objv) "a:"
    [.mk (some (.scalar (.arr [.num 0, .num 1, .num 2])
           (JsAny.str "a") (some (JsAny.str "a")) "a")) none]
    JsAny.undef 0 2 0
    (some (.scalar (.arr [.num 0, .num 1, .num 2])
      (JsAny.str "a") (some (JsAny.str "a")) "a"))
    rfl rfl
  exact h

/-- C3: a property syntax node (which in jsonc-parser output always carries
at least its key child — `parseTree` pushes the key string node into the
property at creation) is never materialized as its own TreeNode: with both
a key child and a value child the builder returns the value child's node
with `keyOffset`/`keyLength` stamped from the key child's span; with the
value child missing it returns no node; and an object node's children list
is the list of non-dropped builder results, so a dropped property
contributes nothing to its parent's children. -/
theorem claim_C3 (off len : Nat) (v key : JsAny) (keyNode valueNode : JNode)
    (rest : List JNode) (cs : List JNode) :
    (buildJsonTree (some (JNode.mk "property" off len v true
        (keyNode :: valueNode :: rest))) key
      = Option.map (fun c => c.stampKey keyNode.offset keyNode.length)
          (buildJsonTree (some valueNode) keyNode.value)) ∧
    (buildJsonTree (some (JNode.mk "property" off len v true [keyNode])) key = none) ∧
    (buildJsonObjChildren cs
      = cs.filterMap (fun c => buildJsonNode c JsAny.undef)) := by
  refine ⟨?_, rfl, buildJsonObjChildren_eq_filterMap cs⟩
  show buildJsonNode (JNode.mk "property" off len v true (keyNode :: valueNode :: rest)) key
      = Option.map (fun c => c.stampKey keyNode.offset keyNode.length)
          (buildJsonNode valueNode keyNode.value)
  rw [buildJsonNode, if_pos rfl]
  simp only [buildJsonPropNode]
  cases hb : buildJsonNode valueNode keyNode.value with
  | some child => rfl
  | none => rfl

/-- C5: rename replacement text is format-aware.  For a valid target
(editor and tree loaded, offset resolvable, parent not an array, key span
recorded): a `json`/`jsonc` document gets the JSON-quoted string form of
the new label; a `yaml` document whose existing key text, trimmed, starts
with a double or single quote gets that same quote character wrapped
verbatim around the new label; a `yaml` document otherwise gets the new
label unquoted. -/
theorem claim_C5 (st : ProviderState) (offset : Nat) (v : String) (en : Entry)
    (ko kl : Nat)
    (hed : st.editorPresent = true) (htr : st.tree.isSome = true)
    (hlookup : mapFind? (nodeMapOf st.tree) offset = some en)
    (hpar : parentIsArrayType en.parent = false)
    (hko : en.node.keyOffset = some ko) (hkl : en.node.keyLength = some kl) :
    ((st.languageId = some "json" ∨ st.languageId = some "jsonc") →
      rename st offset (some v) = some ⟨ko, ko + kl, jsonStringifyString v⟩) ∧
    (∀ q rest2, st.languageId = some "yaml" →
      (jsTrim (sliceText st.text ko kl)).toList = q :: rest2 →
      (q = '"' ∨ q = Char.ofNat 39) →
      rename st offset (some v)
        = some ⟨ko, ko + kl, String.mk [q] ++ v ++ String.mk [q]⟩) ∧
    (st.languageId = some "yaml" →
      (∀ q rest2, (jsTrim (sliceText st.text ko kl)).toList = q :: rest2 →
        q ≠ '"' ∧ q ≠ Char.ofNat 39) →
      rename st offset (some v) = some ⟨ko, ko + kl, v⟩) := by
  obtain ⟨tr, htr'⟩ := Option.isSome_iff_exists.mp htr
  rw [htr'] at hlookup
  have hc1 : ((some ko : Option Nat) == none) = false := rfl
  have hc2 : ((some kl : Option Nat) == none) = false := rfl
  have hbase : rename st offset (some v)
      = some ⟨ko, ko + kl,
          if isYamlLanguage st = true then formatYamlKey st.text v en.node
          else jsonStringifyString v⟩ := by
    simp only [rename, hed, htr', hlookup, hko, hkl, hpar, hc1, hc2, Bool.or_self,
      Bool.false_or, Bool.or_false, Bool.false_eq_true, if_false, Option.getD_some]
  refine ⟨?_, ?_, ?_⟩
  · intro hl
    have hy : isYamlLanguage st = false := by
      rcases hl with hl | hl
      all_goals (simp only [isYamlLanguage, hl]; decide)
    rw [hbase, hy, if_neg (by simp)]
  · intro q rest2 hl hlist hq
    have hy : isYamlLanguage st = true := by
      rw [isYamlLanguage, hl]
      decide
    have hfmt : formatYamlKey st.text v en.node = String.mk [q] ++ v ++ String.mk [q] := by
      simp only [formatYamlKey, hko, hkl]
      rw [hlist]
      exact if_pos (by rcases hq with h | h <;> simp [h])
    rw [hbase, hy, if_pos rfl, hfmt]
  · intro hl hall
    have hy : isYamlLanguage st = true := by
      rw [isYamlLanguage, hl]
      decide
    have hfmt : formatYamlKey st.text v en.node = v := by
      simp only [formatYamlKey, hko, hkl]
      cases hlist : (jsTrim (sliceText st.text ko kl)).toList with
      | nil => rfl
      | cons q rest2 =>
        obtain ⟨h1, h2⟩ := hall q rest2 hlist
        exact if_neg (by simp [h1, h2])
    rw [hbase, hy, if_pos rfl, hfmt]

theorem claim_C5_witness :
    rename (parseTree (some jsonInput)) 5 (some "new")
      = some ⟨1, 4, jsonStringifyString "new"⟩ ∧
    rename (parseTree (some yamlQuotedInput)) 7 (some "new")
      = some ⟨0, 5, String.mk ['"'] ++ "new" ++ String.mk ['"']⟩ ∧
    rename (parseTree (some yamlPlainInput)) 3 (some "new")
      = some ⟨0, 1, "new"⟩ := by
  refine ⟨?_, ?_, ?_⟩
  · exact (claim_C5 (parseTree (some jsonInput)) 5 "new"
      (Entry.mk jsonTreeAChild (some jsonTreeA)) 1 3 rfl rfl rfl rfl rfl rfl).1
      (Or.inl rfl)
  · exact (claim_C5 (parseTree (some yamlQuotedInput)) 7 "new"
      (Entry.mk (.mk 7 1 .number (JsAny.num 1) (JsAny.str "old") (some 0) (some 5) (some []))
        (some (.mk 0 8 .object JsAny.objv JsAny.undef none none
          (some [.mk 7 1 .number (JsAny.num 1) (JsAny.str "old")
            (some 0) (some 5) (some [])]))))
      0 5 rfl rfl rfl rfl rfl rfl).2.1 '"' ['o', 'l', 'd', '"'] rfl rfl (Or.inl rfl)
  · exact (claim_C5 (parseTree (some yamlPlainInput)) 3 "new"
      (Entry.mk (.mk 3 1 .number (JsAny.num 1) (JsAny.str "a") (some 0) (some 1) (some []))
        (some (.mk 0 4 .object JsAny.objv JsAny.undef none none
          (some [.mk 3 1 .number (JsAny.num 1) (JsAny.str "a")
            (some 0) (some 1) (some [])]))))
      0 1 rfl rfl rfl rfl rfl rfl).2.2 rfl
      (fun q r2 h => by cases h; exact ⟨by decide, by decide⟩)

/-- C10: the empty string is a valid new label.  For a valid rename target,
a prompt result of `""` still produces a text edit — the JSON-quoted empty
string (a bare quote pair) for non-yaml documents, the empty string for an
unquoted yaml key, and a bare quote pair for a quoted yaml key — while only
a cancelled prompt (JS null/undefined, here `none`) produces no edit. -/
theorem claim_C10 (st : ProviderState) (offset : Nat) (en : Entry) (ko kl : Nat)
    (hed : st.editorPresent = true) (htr : st.tree.isSome = true)
    (hlookup : mapFind? (nodeMapOf st.tree) offset = some en)
    (hpar : parentIsArrayType en.parent = false)
    (hko : en.node.keyOffset = some ko) (hkl : en.node.keyLength = some kl) :
    (rename st offset none = none) ∧
    (st.languageId ≠ some "yaml" →
      rename st offset (some "") = some ⟨ko, ko + kl, "\"\""⟩) ∧
    (st.languageId = some "yaml" →
      (∀ q rest2, (jsTrim (sliceText st.text ko kl)).toList = q :: rest2 →
        q ≠ '"' ∧ q ≠ Char.ofNat 39) →
      rename st offset (some "") = some ⟨ko, ko + kl, ""⟩) ∧
    (∀ q rest2, st.languageId = some "yaml" →
      (jsTrim (sliceText st.text ko kl)).toList = q :: rest2 →
      (q = '"' ∨ q = Char.ofNat 39) →
      rename st offset (some "") = some ⟨ko, ko + kl, String.mk [q, q]⟩) := by
  obtain ⟨tr, htr'⟩ := Option.isSome_iff_exists.mp htr
  rw [htr'] at hlookup
  have hc1 : ((some ko : Option Nat) == none) = false := rfl
  have hc2 : ((some kl : Option Nat) == none) = false := rfl
  have hbase : rename st offset (some "")
      = some ⟨ko, ko + kl,
          if isYamlLanguage st = true then formatYamlKey st.text "" en.node
          else jsonStringifyString ""⟩ := by
    simp only [rename, hed, htr', hlookup, hko, hkl, hpar, hc1, hc2, Bool.or_self,
      Bool.false_or, Bool.or_false, Bool.false_eq_true, if_false, Option.getD_some]
  refine ⟨rfl, ?_, ?_, ?_⟩
  · intro hl
    have hy : isYamlLanguage st = false := by
      simp only [isYamlLanguage]
      exact beq_eq_false_iff_ne.mpr hl
    rw [hbase, hy, if_neg (by simp)]
    rfl
  · intro hl hall
    have hy : isYamlLanguage st = true := by
      rw [isYamlLanguage, hl]
      decide
    have hfmt : formatYamlKey st.text "" en.node = "" := by
      simp only [formatYamlKey, hko, hkl]
      cases hlist : (jsTrim (sliceText st.text ko kl)).toList with
      | nil => rfl
      | cons q rest2 =>
        obtain ⟨h1, h2⟩ := hall q rest2 hlist
        exact if_neg (by simp [h1, h2])
    rw [hbase, hy, if_pos rfl, hfmt]
  · intro q rest2 hl hlist hq
    have hy : isYamlLanguage st = true := by
      rw [isYamlLanguage, hl]
      decide
    have hfmt : formatYamlKey st.text "" en.node = String.mk [q] ++ "" ++ String.mk [q] := by
      simp only [formatYamlKey, hko, hkl]
      rw [hlist]
      exact if_pos (by rcases hq with h | h <;> simp [h])
    rw [hbase, hy, if_pos rfl, hfmt]
    rfl

theorem claim_C10_witness :
    rename (parseTree (some jsonInput)) 5 none = none ∧
    rename (parseTree (some jsonInput)) 5 (some "") = some ⟨1, 4, "\"\""⟩ ∧
    rename (parseTree (some yamlPlainInput)) 3 (some "") = some ⟨0, 1, ""⟩ ∧
    rename (parseTree (some yamlQuotedInput)) 7 (some "")
      = some ⟨0, 5, String.mk ['"', '"']⟩ := by
  refine ⟨?_, ?_, ?_, ?_⟩
  · exact (claim_C10 (parseTree (some jsonInput)) 5
      (Entry.mk jsonTreeAChild (some jsonTreeA)) 1 3 rfl rfl rfl rfl rfl rfl).1
  · exact (claim_C10 (parseTree (some jsonInput)) 5
      (Entry.mk jsonTreeAChild (some jsonTreeA)) 1 3 rfl rfl rfl rfl rfl rfl).2.1
      (by decide)
  · exact (claim_C10 (parseTree (some yamlPlainInput)) 3
      (Entry.mk (.mk 3 1 .number (JsAny.num 1) (JsAny.str "a") (some 0) (some 1) (some []))
        (some (.mk 0 4 .object JsAny.objv JsAny.undef none none
          (some [.mk 3 1 .number (JsAny.num 1) (JsAny.str "a")
            (some 0) (some 1) (some [])]))))
      0 1 rfl rfl rfl rfl rfl rfl).2.2.1 rfl
      (fun q r2 h => by cases h; exact ⟨by decide, by decide⟩)
  · exact (claim_C10 (parseTree (some yamlQuotedInput)) 7
      (Entry.mk (.mk 7 1 .number (JsAny.num 1) (JsAny.str "old") (some 0) (some 5) (some []))
        (some (.mk 0 8 .object JsAny.objv JsAny.undef none none
          (some [.mk 7 1 .number (JsAny.num 1) (JsAny.str "old")
            (some 0) (some 5) (some [])]))))
      0 5 rfl rfl rfl rfl rfl rfl).2.2.2 '"' ['o', 'l', 'd', '"'] rfl rfl (Or.inl rfl)

/-- C6 counterexample: in `[true]`, the boolean element's label is
`"0:true"` — `getLabel` formats array-element scalars with
`` `${prefix}:${value}` ``, i.e. WITHOUT the space after the colon that the
claimed `"<index>: <rendering>"` shape requires. -/
theorem claim_C6_counterexample :
    buildJsonTree (some jsonDocArr) JsAny.undef = some jsonArrTree ∧
    jsonArrTree.children = some [jsonArrChild] ∧
    getLabel (some "[true]") (some jsonArrTree) jsonArrChild = some "0:true" ∧
    getLabel (some "[true]") (some jsonArrTree) jsonArrChild ≠ some "0: true" := by
  refine ⟨rfl, rfl, rfl, ?_⟩
  intro h
  rw [show getLabel (some "[true]") (some jsonArrTree) jsonArrChild = some "0:true"
    from rfl] at h
  exact absurd (Option.some.inj h) (by decide)

/-- C6 (amended): labels are as claimed except in the array-parent scalar
case, which renders as `"<index>:<literal>"` with NO space after the colon.
In detail — for a node whose parent is an array: objects render
`"<idx>: { <count> }"`, arrays `"<idx>: [ <count> ]"`, scalars
`"<idx>:<literal>"`, where `<idx>` is the position `indexOf` finds in the
parent's children and `<literal>` is the exact source text
`[offset, offset+length)`.  For a node whose parent is not an array (or
with no parent): the label is the key's `toString` rendering `<property>`
(empty when the key is `undefined`, `"true"`/`"false"` for boolean keys,
`"[object Object]"` for object-valued keys) substituted into
`"<property>: <literal>"` for scalars and `"{ <count> } <property>"` /
`"[ <count> ] <property>"` for containers — except that a null key (which
yaml produces, e.g. for `~: 1`) makes `node.key.toString()` throw a
TypeError, so no label at all is produced (`getLabel` is `none`). -/
theorem claim_C6_amended (txt : String) (p n : TreeNode) (cs ncs : List TreeNode)
    (q : Option TreeNode) :
    (p.type = .array → p.children = some cs →
      ((n.type = .object → n.children = some ncs →
         getLabel (some txt) (some p) n
           = some (toString (indexOfNode cs n) ++ ": \x7b "
               ++ toString ncs.length ++ " \x7d")) ∧
       (n.type = .array → n.children = some ncs →
         getLabel (some txt) (some p) n
           = some (toString (indexOfNode cs n) ++ ": [ "
               ++ toString ncs.length ++ " ]")) ∧
       (n.type ≠ .object → n.type ≠ .array →
         getLabel (some txt) (some p) n
           = some (toString (indexOfNode cs n) ++ ":"
               ++ sliceText txt n.offset n.length)))) ∧
    ((∀ pp, q = some pp → pp.type ≠ .array) →
      ((n.key = JsAny.nullv → getLabel (some txt) q n = none) ∧
       (n.type = .object → n.children = some ncs →
         getLabel (some txt) q n
           = (if n.key != JsAny.undef then jsToString n.key else some "").map
               (fun property => "\x7b " ++ toString ncs.length ++ " \x7d " ++ property)) ∧
       (n.type = .array → n.children = some ncs →
         getLabel (some txt) q n
           = (if n.key != JsAny.undef then jsToString n.key else some "").map
               (fun property => "[ " ++ toString ncs.length ++ " ] " ++ property)) ∧
       (n.type ≠ .object → n.type ≠ .array →
         getLabel (some txt) q n
           = (if n.key != JsAny.undef then jsToString n.key else some "").map
               (fun property => property ++ ": " ++ sliceText txt n.offset n.length)))) := by
  constructor
  · intro hp hpc
    have hparr : (p.type == TreeNodeType.array) = true := by simp [hp]
    refine ⟨?_, ?_, ?_⟩
    · intro hn hnc
      simp [getLabel, hparr, hpc, hn, getNodeChildrenCount, hnc]
    · intro hn hnc
      simp [getLabel, hparr, hpc, hn, getNodeChildrenCount, hnc]
    · intro hno hna
      have e1 : (n.type == TreeNodeType.object) = false := beq_eq_false_iff_ne.mpr hno
      have e2 : (n.type == TreeNodeType.array) = false := beq_eq_false_iff_ne.mpr hna
      simp [getLabel, hparr, hpc, e1, e2, jsTemplateStr]
  · intro hq
    have hgl : getLabel (some txt) q n = getLabelNonArray (some txt) n := by
      cases q with
      | none => rfl
      | some pp =>
        have hppa : (pp.type == TreeNodeType.array) = false :=
          beq_eq_false_iff_ne.mpr (hq pp rfl)
        simp [getLabel, hppa]
    refine ⟨?_, ?_, ?_, ?_⟩
    · intro hk
      rw [hgl, getLabelNonArray]
      simp [hk, jsToString]
    · intro hn hnc
      rw [hgl, getLabelNonArray]
      cases hk : (if n.key != JsAny.undef then jsToString n.key else some "") with
      | none => rfl
      | some property => simp [hn, getNodeChildrenCount, hnc]
    · intro hn hnc
      rw [hgl, getLabelNonArray]
      cases hk : (if n.key != JsAny.undef then jsToString n.key else some "") with
      | none => rfl
      | some property => simp [hn, getNodeChildrenCount, hnc]
    · intro hno hna
      have e1 : (n.type == TreeNodeType.object) = false := beq_eq_false_iff_ne.mpr hno
      have e2 : (n.type == TreeNodeType.array) = false := beq_eq_false_iff_ne.mpr hna
      rw [hgl, getLabelNonArray]
      cases hk : (if n.key != JsAny.undef then jsToString n.key else some "") with
      | none => rfl
      | some property => simp [e1, e2, jsTemplateStr]

theorem claim_C6_amended_witness :
    getLabel (some "\x7b\"a\":1\x7d") (some jsonTreeA) jsonTreeAChild = some "a: 1" ∧
    getLabel (some "[true]") (some jsonArrTree) jsonArrChild = some "0:true" ∧
    getLabel (some "true: 1") none
      (.mk 6 1 .number (JsAny.num 1) (JsAny.boolv true) (some 0) (some 4) (some []))
      = some "true: 1" ∧
    getLabel (some "~: 1") none
      (.mk 3 1 .number (JsAny.num 1) JsAny.nullv (some 0) (some 1) (some []))
      = none := by
  refine ⟨?_, ?_, ?_, ?_⟩
  · exact ((claim_C6_amended "\x7b\"a\":1\x7d" jsonTreeA jsonTreeAChild [] []
      (some jsonTreeA)).2 (fun pp hpp => by cases hpp; decide)).2.2.2
      (by decide) (by decide)
  · exact ((claim_C6_amended "[true]" jsonArrTree jsonArrChild [jsonArrChild] []
      none).1 rfl rfl).2.2 (by decide) (by decide)
  · exact ((claim_C6_amended "true: 1"
      (.mk 6 1 .number (JsAny.num 1) (JsAny.boolv true) (some 0) (some 4) (some []))
      (.mk 6 1 .number (JsAny.num 1) (JsAny.boolv true) (some 0) (some 4) (some []))
      [] [] none).2 (fun pp hpp => nomatch hpp)).2.2.2 (by decide) (by decide)
  · exact ((claim_C6_amended "~: 1"
      (.mk 3 1 .number (JsAny.num 1) JsAny.nullv (some 0) (some 1) (some []))
      (.mk 3 1 .number (JsAny.num 1) JsAny.nullv (some 0) (some 1) (some []))
      [] [] none).2 (fun pp hpp => nomatch hpp)).1 rfl
